import Mathlib

/-!
Verification of the Pocklington hash-to-prime module
(`src/hash/pocklington/mod.rs` of bellperson-nonnative).

Big unsigned integers (`num_bigint::BigUint`) are modelled as `Nat`.
Field elements of the pairing engine are modelled as `Nat` as well: the only
field operations this module performs on them are zero-initialisation and
repeated `add_assign(one)` on a small counter (far below the field
characteristic), which is faithfully modelled by `Nat` successor.

The module's external collaborators (the MiMC nonce-mixing permutation, the
main hash, the entropy bit stream and the 32-bit Miller-Rabin test) are not
part of the given source; following the spec they are collected in an
environment record `Env` that all embedded functions take as a parameter.
The floating-point helper `nonce_bits_needed` (f64 arithmetic in the source)
cannot be shallowly embedded; every function that uses it takes it as an
explicit `nbn : Nat → Nat` parameter, and concrete instantiations record the
IEEE-754 double values where they matter.
-/

namespace Pocklington

/-- Fuel-driven square-and-multiply core of `BigUint::modpow`.  The fuel only
bounds the recursion depth (the exponent halves each step), so any fuel of at
least `e` computes `b ^ e % m`; see `modpowAux_eq`. -/
def modpowAux : Nat → Nat → Nat → Nat → Nat
  | 0, _, _, m => 1 % m
  | fuel + 1, b, e, m =>
    if e = 0 then 1 % m
    else
      let h := modpowAux fuel b (e / 2) m
      if e % 2 = 1 then h * h % m * (b % m) % m else h * h % m

/-- Embedding of `BigUint::modpow`: `modpow b e m = b ^ e % m` (see
`modpow_eq`), computed by fast exponentiation so that concrete instances
evaluate in logarithmically many steps. -/
def modpow (b e m : Nat) : Nat := modpowAux (e + 1) b e m

/-- Modelled from the spec: `hash::low_k_bits` extracts the low-order `k` bits
of a value. -/
def low_k_bits (n k : Nat) : Nat := n % 2 ^ k

/-- The bit-pattern template consumed by the entropy stream
(`entropy::NatTemplate`): `trailing_ones` fixed set low bits, `random_bits`
pseudorandom bits in between, `leading_ones` fixed set high bits. -/
structure NatTemplate where
  trailing_ones : Nat
  leading_ones : Nat
  random_bits : Nat
deriving DecidableEq

/-- The external collaborators of the module (spec §6), bundled as one record:
`mimc` is the composite `f_to_nat ∘ mimc::permutation ∘ F::from_str` applied
to a nonce counter; `mr32` is the 32-bit probabilistic primality test
`miller_rabin_32b`; `entropyBit` is the pseudorandom bit stream derived from a
hash value (bit index ↦ bit); `hash` is the main hash over a sequence of
field elements. -/
structure Env where
  mimc : Nat → Nat
  mr32 : Nat → Bool
  entropyBit : Nat → Nat → Bool
  hash : List Nat → Nat

/-- State of the entropy stream: the hash it is keyed by, the total number of
bits it was sized to (`plan.entropy()` at creation; draws do not depend on
it), and the number of bits consumed so far. -/
structure EntropySource where
  hashVal : Nat
  len : Nat
  pos : Nat
deriving DecidableEq

/-- `EntropySource::new(hash, len)`. -/
def EntropySource.new (hash len : Nat) : EntropySource := ⟨hash, len, 0⟩

/-- The little-endian number formed by `n` consecutive stream bits starting at
position `pos`. -/
def rawBits (env : Env) (h : Nat) : Nat → Nat → Nat
  | _, 0 => 0
  | pos, n + 1 => (if env.entropyBit h pos then 1 else 0) + 2 * rawBits env h (pos + 1) n

/-- Modelled from the spec: `EntropySource::get_bits_as_nat` consumes
`random_bits` fresh pseudorandom bits and produces a number with
`leading_ones` fixed set high bits, `trailing_ones` fixed set low bits and the
pseudorandom bits in between. -/
def getBitsAsNat (env : Env) (src : EntropySource) (t : NatTemplate) : Nat × EntropySource :=
  let raw := rawBits env src.hashVal src.pos t.random_bits
  ((2 ^ t.trailing_ones - 1) + raw * 2 ^ t.trailing_ones +
      (2 ^ t.leading_ones - 1) * 2 ^ (t.trailing_ones + t.random_bits),
    ⟨src.hashVal, src.len, src.pos + t.random_bits⟩)

/-- Splits `m` as `2 ^ s * d` with `d` odd, returning `(s, d)` (fuel-driven). -/
def oddSplit : Nat → Nat → Nat × Nat
  | 0, m => (0, m)
  | fuel + 1, m =>
    if m ≠ 0 ∧ m % 2 = 0 then
      let sd := oddSplit fuel (m / 2)
      (sd.1 + 1, sd.2)
    else (0, m)

/-- Squaring rounds of a Miller-Rabin witness check. -/
def mrRounds (n : Nat) : Nat → Nat → Bool
  | _, 0 => false
  | x, s + 1 =>
    let x2 := x * x % n
    if x2 = n - 1 then true else mrRounds n x2 s

/-- One Miller-Rabin witness check for `n` with `n - 1 = 2 ^ s * d`. -/
def mrWitness (n d s a : Nat) : Bool :=
  let x := modpow a d n
  if x = 1 ∨ x = n - 1 then true else mrRounds n x (s - 1)

/-- Modelled from the spec: the external 32-bit probabilistic primality test
`miller_rabin_32b`, realized as deterministic Miller-Rabin with the witness
set {2, 7, 61}, which is exact for every input below 2^32. -/
def millerRabin32 (n : Nat) : Bool :=
  if n < 2 then false
  else if n % 2 = 0 then n == 2
  else
    let sd := oddSplit n (n - 1)
    [2, 7, 61].all fun a => mrWitness n sd.2 sd.1 a

/-- `helper::PlannedExtension`: the bit budget of one planned extension step.
As in the source, `random_bits` counts the whole drawn value (the marginal
entropy plus the nonce bits folded into it by the planner). -/
structure PlannedExtension where
  nonce_bits : Nat
  random_bits : Nat
deriving DecidableEq

/-- `helper::PocklingtonPlan`. -/
structure PocklingtonPlan where
  nonce_bits : Nat
  initial_entropy : Nat
  extensions : List PlannedExtension
deriving DecidableEq

/-- `PocklingtonPlan::entropy`. -/
def PocklingtonPlan.entropy (p : PocklingtonPlan) : Nat :=
  (p.extensions.map fun i => i.random_bits - i.nonce_bits).sum + p.initial_entropy

/-- `PocklingtonPlan::max_bits`. -/
def PocklingtonPlan.max_bits (p : PocklingtonPlan) : Nat :=
  (p.extensions.map fun i => i.random_bits + 1).sum + 32

/-- An entry of the dynamic-programming table inside `PocklingtonPlan::new`. -/
structure Entry where
  marginal_entropy : Nat
  entropy : Nat
  bits : Nat
  random_bits : Nat
  nonce_bits : Nat
deriving DecidableEq

/-- The inner fixed-point loop of `PocklingtonPlan::new`: starting from
`nonce_bits = nb`, grow the nonce-bit count until it meets
`nbn next_bits` for the resulting width, or fail (`error = true` in the
source) when `random_bits + nonce_bits + 1 >= base.bits`.  Returns
`(nonce_bits, next_bits)` on success.  The loop increments `nonce_bits` each
iteration and errors out as soon as `random_bits + nonce_bits + 1` reaches
`base_bits`, so any fuel of at least `base_bits + 1` is equivalent to the
unbounded loop. -/
def innerLoop (nbn : Nat → Nat) (random_bits base_bits : Nat) : Nat → Nat → Option (Nat × Nat)
  | _, 0 => none
  | nb, fuel + 1 =>
    if random_bits + nb + 1 ≥ base_bits then none
    else
      let next_bits := nb + random_bits + base_bits + 1
      if nbn next_bits ≤ nb then some (nb, next_bits)
      else innerLoop nbn random_bits base_bits (nb + 1) fuel

/-- The candidate scan of `PocklingtonPlan::new`: iterate over the table
entries in reverse order and keep the candidate with the strictly smallest
resulting bit count (`next_bits < next.bits`; the accumulator `none` plays
the role of the `usize::MAX` sentinel). -/
def scanBases (nbn : Nat → Nat) (next_entropy : Nat) : List Entry → Option Entry → Option Entry
  | [], acc => acc
  | base :: rest, acc =>
    let random_bits := next_entropy - base.entropy
    match innerLoop nbn random_bits base.bits 0 (base.bits + 2) with
    | none => scanBases nbn next_entropy rest acc
    | some (nb, next_bits) =>
      match acc with
      | none =>
        scanBases nbn next_entropy rest
          (some ⟨random_bits, next_entropy, next_bits, random_bits + nb, nb⟩)
      | some a =>
        if next_bits < a.bits then
          scanBases nbn next_entropy rest
            (some ⟨random_bits, next_entropy, next_bits, random_bits + nb, nb⟩)
        else scanBases nbn next_entropy rest acc

/-- The `while table.last().unwrap().entropy < entropy` loop of
`PocklingtonPlan::new`; the failed `assert_ne!(next.bits, usize::MAX)` (no
candidate base) is modelled as `none`.  Each iteration raises the last
entropy by exactly one, so fuel `entropy + 1` is equivalent to the unbounded
loop. -/
def buildTable (nbn : Nat → Nat) (target : Nat) : Nat → List Entry → Option (List Entry)
  | 0, _ => none
  | fuel + 1, table =>
    match table.getLast? with
    | none => none
    | some lastE =>
      if target ≤ lastE.entropy then some table
      else
        match scanBases nbn (lastE.entropy + 1) table.reverse none with
        | none => none
        | some nextE => buildTable nbn target fuel (table ++ [nextE])

/-- The 32-bit seed entry the table of `PocklingtonPlan::new` starts from:
`bits = 32`, `nonce_bits = nbn 32 - 1`, and entropy
`32 - 3 - (nbn 32 - 1)` (3 bits reserved for the fixed pattern bits of the
seed template). -/
def seedEntry (nbn : Nat → Nat) : Entry :=
  ⟨32 - 3 - (nbn 32 - 1), 32 - 3 - (nbn 32 - 1), 32, 0, nbn 32 - 1⟩

/-- The backward reconstruction loop of `PocklingtonPlan::new`
(`while i > 0 { extensions.push(...); i -= table[i].marginal_entropy; }`),
collecting the extensions in top-down order.  A zero marginal entropy (a
non-terminating Rust loop) or a jump below zero (a usize underflow panic) is
modelled as `none`; fuel `t.length` suffices because every jump is by at
least one. -/
def rebuild (t : List Entry) : Nat → Nat → List PlannedExtension → Option (List PlannedExtension)
  | 0, _, _ => none
  | fuel + 1, i, acc =>
    if i = 0 then some acc
    else
      match t.get? i with
      | none => none
      | some e =>
        if e.marginal_entropy = 0 ∨ i < e.marginal_entropy then none
        else rebuild t fuel (i - e.marginal_entropy) (acc ++ [⟨e.nonce_bits, e.random_bits⟩])

/-- `PocklingtonPlan::new`, parameterised by the floating-point helper
`nonce_bits_needed` (`nbn`).  Rust panics (the `assert!(entropy >= 29)`, the
usize underflows in `nonce_bits_needed(bits) - 1` and
`bits - 3 - nonce_bits`, the `assert_ne!` / `assert_eq!` on the table) are
modelled as `none`. -/
def PocklingtonPlan.new (nbn : Nat → Nat) (entropy : Nat) : Option PocklingtonPlan :=
  if entropy < 29 then none
  else if nbn 32 = 0 then none
  else
    let nonce_bits := nbn 32 - 1
    if 29 < nonce_bits then none
    else
      match buildTable nbn entropy (entropy + 1) [seedEntry nbn] with
      | none => none
      | some t =>
        match t.getLast? with
        | none => none
        | some lastE =>
          if lastE.entropy ≠ entropy then none
          else
            match rebuild t t.length (t.length - 1) [] with
            | none => none
            | some exts => some ⟨nonce_bits, 29 - nonce_bits, exts.reverse⟩

/-- `helper::PocklingtonExtension`. -/
structure PocklingtonExtension where
  plan : PlannedExtension
  random : Nat
  nonce : Nat
  checking_base : Nat
  result : Nat
deriving DecidableEq

/-- `helper::PocklingtonCertificate`. -/
structure PocklingtonCertificate where
  base_prime : Nat
  base_nonce : Nat
  extensions : List PocklingtonExtension
deriving DecidableEq

/-- `PocklingtonCertificate::number`: the result of the last extension, or
`base_prime` if there are none. -/
def PocklingtonCertificate.number (p : PocklingtonCertificate) : Nat :=
  match p.extensions.getLast? with
  | some l => l.result
  | none => p.base_prime

/-- The base search of `attempt_pocklington_extension`
(`while base < number`): `fuel` is `number - base` at entry, so the loop
stops exactly when `base` reaches `number`.  When
`part.modpow(prior, number) ≠ 1` the source `break`s out of the whole base
loop (returning `none` here, surrendering this nonce); when the power check
passes but `gcd(part - 1, number) ≠ 1` the base advances by one. -/
def find_base (number prior nonced_extension : Nat) : Nat → Nat → Option Nat
  | _, 0 => none
  | base, fuel + 1 =>
    let part := modpow base nonced_extension number
    if modpow part prior number ≠ 1 then none
    else if Nat.gcd (part - 1) number = 1 then some base
    else find_base number prior nonced_extension (base + 1) fuel

/-- Formalisation of the base-search step as the spec sentence describes it
(claim C7): on `part^prior mod candidate ≠ 1` only the single base is
rejected and the search advances to `base + 1`.  Written from the spec's
words, for comparison with `find_base` (which embeds the source). -/
def find_base_claim (number prior nonced_extension : Nat) : Nat → Nat → Option Nat
  | _, 0 => none
  | base, fuel + 1 =>
    let part := modpow base nonced_extension number
    if modpow part prior number ≠ 1 then
      find_base_claim number prior nonced_extension (base + 1) fuel
    else if Nat.gcd (part - 1) number = 1 then some base
    else find_base_claim number prior nonced_extension (base + 1) fuel

/-- The nonce loop of `attempt_pocklington_extension`
(`for i in 0..(1 << plan.nonce_bits)`), with `fuel` the number of remaining
nonce values. -/
def attemptLoop (env : Env) (p : PocklingtonCertificate) (plan : PlannedExtension)
    (random : Nat) : Nat → Nat → Except PocklingtonCertificate PocklingtonCertificate
  | _, 0 => .error p
  | i, fuel + 1 =>
    let mimcd_nonce := low_k_bits (env.mimc i) plan.nonce_bits
    let nonced_extension := random + mimcd_nonce
    let number := p.number * nonced_extension + 1
    match find_base number p.number nonced_extension 2 (number - 2) with
    | some base =>
      .ok ⟨p.base_prime, p.base_nonce,
        p.extensions ++ [⟨plan, random, i, base, number⟩]⟩
    | none => attemptLoop env p plan random (i + 1) fuel

/-- `helper::attempt_pocklington_extension`. -/
def attempt_pocklington_extension (env : Env) (p : PocklingtonCertificate)
    (plan : PlannedExtension) (random : Nat) :
    Except PocklingtonCertificate PocklingtonCertificate :=
  attemptLoop env p plan random 0 (2 ^ plan.nonce_bits)

/-- The extension fold of `execute_pocklington_plan`
(`for extension in &plan.extensions`). -/
def execExts (env : Env) :
    EntropySource → PocklingtonCertificate → List PlannedExtension →
    Option PocklingtonCertificate
  | _, certificate, [] => some certificate
  | bits, certificate, extension :: rest =>
    let dr := getBitsAsNat env bits ⟨0, 1, extension.random_bits⟩
    match attempt_pocklington_extension env certificate extension dr.1 with
    | .ok c => execExts env dr.2 c rest
    | .error _ => none

/-- `helper::execute_pocklington_plan`. -/
def execute_pocklington_plan (env : Env) (hash : Nat) (plan : PocklingtonPlan)
    (nonce : Nat) : Option PocklingtonCertificate :=
  let bits := EntropySource.new hash plan.entropy
  let dr := getBitsAsNat env bits ⟨2, 1, 29⟩
  if env.mr32 dr.1 then execExts env dr.2 ⟨dr.1, nonce, []⟩ plan.extensions
  else none

/-- The counter loop of `helper::hash_to_pocklington_prime`: the counter field
appended to the inputs starts at zero and is incremented by one after every
failed attempt, so at loop index `nonce` the hashed sequence is
`inputs ++ [nonce]`. -/
def htpLoop (env : Env) (plan : PocklingtonPlan) (inputs : List Nat) :
    Nat → Nat → Option PocklingtonCertificate
  | _, 0 => none
  | nonce, fuel + 1 =>
    let hash := env.hash (inputs ++ [nonce])
    match execute_pocklington_plan env hash plan nonce with
    | some cert => some cert
    | none => htpLoop env plan inputs (nonce + 1) fuel

/-- `helper::hash_to_pocklington_prime`. -/
def helper_hash_to_pocklington_prime (env : Env) (nbn : Nat → Nat)
    (inputs : List Nat) (entropy : Nat) : Option PocklingtonCertificate :=
  match PocklingtonPlan.new nbn entropy with
  | none => none
  | some plan => htpLoop env plan inputs 0 (2 ^ plan.nonce_bits)

/-- The per-extension body of the in-circuit `hash_to_pocklington_prime`, at
the level of the values carried by the gadgets: `i` indexes the certificate
hint (`cert.extensions[i]`), `prime` is the running prior.  Constraint
enforcement is modelled by `Option`: `none` exactly when an emitted
constraint cannot be satisfied (the `enforce_coprime` and
`equal_when_carried` relations) or a witness hint is unavailable.
`BigNat::shift(one)` on `n_less_one` is modelled from the spec as adding the
constant into the low limb, i.e. `n = n_less_one + 1`. -/
def circuitExts (env : Env) (cert : PocklingtonCertificate) :
    List PlannedExtension → Nat → EntropySource → Nat → Option Nat
  | [], _, _, prime => some prime
  | extension :: rest, i, es, prime =>
    match cert.extensions.get? i with
    | none => none
    | some ce =>
      let mimcd_nonce := low_k_bits (env.mimc ce.nonce) extension.nonce_bits
      let dr := getBitsAsNat env es ⟨0, 1, extension.random_bits⟩
      let nonced_extension := dr.1 + mimcd_nonce
      let base := ce.checking_base
      let n_less_one := nonced_extension * prime
      let n := n_less_one + 1
      let part := modpow base nonced_extension n
      if Nat.gcd (part - 1) n ≠ 1 then none
      else if modpow part prime n ≠ 1 then none
      else circuitExts env cert rest (i + 1) dr.2 n

/-- The in-circuit `hash_to_pocklington_prime` at the level of values: it
recomputes the plan, reruns the native derivation to obtain the certificate
hint, recomputes the hash over `input ++ [base_nonce]`, re-derives the seed
and every extension from the entropy stream, and enforces the Miller-Rabin
and Pocklington relations, returning the value of the output `BigNat`. -/
def circuit_hash_to_pocklington_prime (env : Env) (nbn : Nat → Nat)
    (input : List Nat) (entropy : Nat) : Option Nat :=
  match PocklingtonPlan.new nbn entropy with
  | none => none
  | some plan =>
    match helper_hash_to_pocklington_prime env nbn input entropy with
    | none => none
    | some cert =>
      let hash := env.hash (input ++ [cert.base_nonce])
      let es := EntropySource.new hash entropy
      let dr := getBitsAsNat env es ⟨2, 1, 29⟩
      if env.mr32 dr.1 then circuitExts env cert plan.extensions 0 dr.2 dr.1
      else none

/-- The number a certificate extension chain ends at: the `result` of the last
extension, or the prior number if the chain is empty. -/
def chainNumber (prior : Nat) (ces : List PocklingtonExtension) : Nat :=
  match ces.getLast? with
  | some e => e.result
  | none => prior

/-- The extension value of a certificate extension:
`random + low_k_bits(mimc(nonce), plan.nonce_bits)`. -/
def extension_value (env : Env) (ce : PocklingtonExtension) : Nat :=
  ce.random + low_k_bits (env.mimc ce.nonce) ce.plan.nonce_bits

/-- The per-extension Pocklington relation of the spec: with
`part = checking_base ^ extension_value mod result`,
`result = prior * extension_value + 1`, `part ^ prior mod result = 1` and
`gcd(part - 1, result) = 1`. -/
def pockRel (env : Env) (prior : Nat) (ce : PocklingtonExtension) : Prop :=
  ce.result = prior * extension_value env ce + 1 ∧
  (ce.checking_base ^ extension_value env ce % ce.result) ^ prior % ce.result = 1 ∧
  Nat.gcd (ce.checking_base ^ extension_value env ce % ce.result - 1) ce.result = 1

/-- The whole-chain Pocklington invariant: every extension satisfies
`pockRel` with respect to the immediately preceding number (the previous
extension's `result`, or `base_prime` for the first). -/
def extChainOk (env : Env) : Nat → List PocklingtonExtension → Prop
  | _, [] => True
  | prior, ce :: rest => pockRel env prior ce ∧ extChainOk env ce.result rest

/-- Exact accounting of a successful `execExts` run starting at stream
position `pos` of the stream keyed by `h`, with running prior `prior`: the
produced extensions record the planned budgets, the drawn random values
(`rawBits ... + 2 ^ random_bits`, the leading-one template), nonces inside
the planned nonce space, and results satisfying the Pocklington relations
(with `modpow` standing for `BigUint::modpow`). -/
def matchExts (env : Env) :
    Nat → Nat → Nat → List PlannedExtension → List PocklingtonExtension → Prop
  | _, _, _, [], [] => True
  | _, _, _, [], _ :: _ => False
  | _, _, _, _ :: _, [] => False
  | h, pos, prior, pe :: pes, ce :: ces =>
    ce.plan = pe ∧
    ce.random = rawBits env h pos pe.random_bits + 2 ^ pe.random_bits ∧
    ce.nonce < 2 ^ pe.nonce_bits ∧
    2 ≤ ce.checking_base ∧
    ce.result = prior * (ce.random + low_k_bits (env.mimc ce.nonce) pe.nonce_bits) + 1 ∧
    prior < ce.result ∧
    modpow (modpow ce.checking_base (ce.random + low_k_bits (env.mimc ce.nonce) pe.nonce_bits)
        ce.result) prior ce.result = 1 ∧
    Nat.gcd (modpow ce.checking_base (ce.random + low_k_bits (env.mimc ce.nonce) pe.nonce_bits)
        ce.result - 1) ce.result = 1 ∧
    matchExts env h (pos + pe.random_bits) ce.result pes ces

/-- The width invariant the planner actually maintains, along the chain of
bit-lengths `B` starting at the 32-bit seed: each planned extension has
`nonce_bits ≤ random_bits` and `random_bits + 1 < B` (equivalently, with the
marginal entropy `random_bits - nonce_bits`, the source's checked condition
`(random_bits - nonce_bits) + nonce_bits + 1 < B`), and the next width is
`B + random_bits + 1`. -/
def planChainOk : List PlannedExtension → Nat → Prop
  | [], _ => True
  | e :: rest, B =>
    e.nonce_bits ≤ e.random_bits ∧ e.random_bits + 1 < B ∧
    planChainOk rest (B + e.random_bits + 1)

/-- The IEEE-754 double values of the source's `nonce_bits_needed` at every
bit-width its plan construction queries for small entropies: 10 at width 32
and 11 for the widths 34-53 reached from the 32-bit seed (the f64
computation `ceil(log2(ceil(log(2^-64) / log(1 - density(bits)))))`). -/
def nbnReal : Nat → Nat := fun bits => if bits ≤ 33 then 10 else 11

/-- Pseudorandom bit stream for the witness environment: the 29 seed bits
encode 2 (so the seed draw is the prime `2^31 + 2*4 + 3 = 2147483659`), and
the following 20 extension bits encode 72 (so the extension draw is
`2^20 + 72 = 1048648`, making the extension result
`2147483659 * 1048648 + 1 = 2251954444043033`, a prime). -/
def wBits : Nat → Bool := fun i => i == 1 || i == 32 || i == 35

/-- Witness environment: zero MiMC permutation, the modelled 32-bit
Miller-Rabin test, the `wBits` stream for every hash value, and a constant
main hash. -/
def wEnv : Env := ⟨fun _ => 0, millerRabin32, fun _ i => wBits i, fun _ => 0⟩

/-- The plan `PocklingtonPlan::new` produces for entropy 29 with the real
`nonce_bits_needed` values (`nbnReal`). -/
def wPlan : PocklingtonPlan := ⟨9, 20, [⟨11, 20⟩]⟩

/-- The certificate the native derivation produces in `wEnv` for inputs
`[1]` and entropy 29. -/
def wCert : PocklingtonCertificate :=
  ⟨2147483659, 0, [⟨⟨11, 20⟩, 1048648, 0, 2, 2251954444043033⟩]⟩

/-- Bit stream for the size-bound counterexample: the 29 seed bits encode
417566325 (so the seed draw is the prime `3817748951`) and the 3 extension
bits are all set (so the extension draw is the maximal value 15). -/
def c4Bits : Nat → Bool := fun i => if i < 29 then Nat.testBit 417566325 i else true

/-- Environment for the size-bound counterexample: the constant-3 MiMC
permutation makes the low-2-bit nonce mask 3, so the nonced extension value
is `15 + 3 = 18` and the extension result is
`3817748951 * 18 + 1 = 68719481119`, a 37-bit prime. -/
def c4Env : Env := ⟨fun _ => 3, millerRabin32, fun _ i => c4Bits i, fun _ => 0⟩

/-- Plan for the size-bound counterexample: one extension with 3 random bits
and 2 nonce bits, so `max_bits = 32 + (3 + 1) = 36`. -/
def c4Plan : PocklingtonPlan := ⟨9, 20, [⟨2, 3⟩]⟩

/-- The certificate `execute_pocklington_plan` produces in `c4Env` under
`c4Plan`; its number `68719481119` needs 37 bits. -/
def c4Cert : PocklingtonCertificate :=
  ⟨3817748951, 0, [⟨⟨2, 3⟩, 15, 0, 2, 68719481119⟩]⟩

/-- A trivial environment (zero MiMC, always-true primality test, zero
stream and hash) for the small extension-level witnesses. -/
def tEnv : Env := ⟨fun _ => 0, fun _ => true, fun _ _ => false, fun _ => 0⟩

instance {α β : Type} [DecidableEq α] [DecidableEq β] : DecidableEq (Except α β) :=
  fun a b =>
    match a, b with
    | .ok x, .ok y =>
      if h : x = y then isTrue (by rw [h]) else isFalse (fun hc => h (by injection hc))
    | .ok _, .error _ => isFalse (fun hc => Except.noConfusion hc)
    | .error _, .ok _ => isFalse (fun hc => Except.noConfusion hc)
    | .error x, .error y =>
      if h : x = y then isTrue (by rw [h]) else isFalse (fun hc => h (by injection hc))

/-- Endpoint-tracking version of the planner width invariant: `chainUp l B B'`
says the widths grow from `B` to exactly `B'` along `l`, maintaining
`random_bits + 1 < B` at every step. -/
def chainUp : List PlannedExtension → Nat → Nat → Prop
  | [], B, B' => B = B'
  | e :: rest, B, B' =>
    e.nonce_bits ≤ e.random_bits ∧ e.random_bits + 1 < B ∧
    chainUp rest (B + e.random_bits + 1) B'

/-- The relation between a table entry `e` selected by the candidate scan at
target entropy `ne` and the base entry it was built from. -/
def candRel (nbn : Nat → Nat) (ne : Nat) (base e : Entry) : Prop :=
  ∃ nb nxt, innerLoop nbn (ne - base.entropy) base.bits 0 (base.bits + 2) = some (nb, nxt) ∧
    e = ⟨ne - base.entropy, ne, nxt, (ne - base.entropy) + nb, nb⟩

/-- Invariant of the dynamic-programming table of `PocklingtonPlan::new`:
entry `i` has entropy `e0 + i`, and every non-seed entry records a marginal
entropy in `[1, i]` equal to `random_bits - nonce_bits`, satisfies
`random_bits + 1 < B` for the bit-width `B` of its base entry (the entry
`marginal_entropy` indices back), and has width `B + random_bits + 1`. -/
def tableInv (e0 : Nat) (t : List Entry) : Prop :=
  ∀ i e, t.get? i = some e →
    e.entropy = e0 + i ∧
    (0 < i →
      1 ≤ e.marginal_entropy ∧ e.marginal_entropy ≤ i ∧
      e.nonce_bits ≤ e.random_bits ∧
      e.random_bits - e.nonce_bits = e.marginal_entropy ∧
      ∃ b, t.get? (i - e.marginal_entropy) = some b ∧
        e.random_bits + 1 < b.bits ∧ e.bits = b.bits + e.random_bits + 1)

theorem modpowAux_eq : ∀ fuel b e m, e ≤ fuel → modpowAux fuel b e m = b ^ e % m := by
  intro fuel
  induction fuel with
  | zero =>
    intro b e m he
    have : e = 0 := Nat.le_zero.mp he
    subst this
    simp [modpowAux]
  | succ f ih =>
    intro b e m he
    by_cases h0 : e = 0
    · subst h0; simp [modpowAux]
    · have hrec : modpowAux f b (e / 2) m = b ^ (e / 2) % m := ih b (e / 2) m (by omega)
      by_cases hpar : e % 2 = 1
      · show (if e = 0 then 1 % m else
            let h := modpowAux f b (e / 2) m
            if e % 2 = 1 then h * h % m * (b % m) % m else h * h % m) = b ^ e % m
        simp only [if_neg h0, if_pos hpar, hrec]
        conv_rhs => rw [show e = e / 2 + e / 2 + 1 from by omega]
        rw [pow_add, pow_add, pow_one]
        conv_rhs => rw [Nat.mul_mod, Nat.mul_mod (b ^ (e / 2)) (b ^ (e / 2))]
      · show (if e = 0 then 1 % m else
            let h := modpowAux f b (e / 2) m
            if e % 2 = 1 then h * h % m * (b % m) % m else h * h % m) = b ^ e % m
        simp only [if_neg h0, if_neg hpar, hrec]
        conv_rhs => rw [show e = e / 2 + e / 2 from by omega]
        rw [pow_add]
        conv_rhs => rw [Nat.mul_mod]

theorem modpow_eq (b e m : Nat) : modpow b e m = b ^ e % m :=
  modpowAux_eq (e + 1) b e m (by omega)

theorem rawBits_lt (env : Env) (h : Nat) : ∀ n pos, rawBits env h pos n < 2 ^ n := by
  intro n
  induction n with
  | zero => intro pos; simp [rawBits]
  | succ k ih =>
    intro pos
    have hb : (if env.entropyBit h pos then 1 else 0) ≤ 1 := by split <;> omega
    have := ih (pos + 1)
    have hp : 2 ^ (k + 1) = 2 * 2 ^ k := by rw [pow_succ]; ring
    simp only [rawBits]
    omega

theorem low_k_bits_lt (n k : Nat) : low_k_bits n k < 2 ^ k :=
  Nat.mod_lt _ (Nat.pos_pow_of_pos k (by omega))

theorem get?_eq_of_drop {α : Type} : ∀ (l : List α) (i : Nat) (x : α) (r : List α),
    l.drop i = x :: r → l.get? i = some x := by
  intro l
  induction l with
  | nil => intro i x r h; simp at h
  | cons a as ih =>
    intro i x r h
    cases i with
    | zero => simp at h ⊢; exact h.1
    | succ j => exact ih j x r h

theorem drop_succ_of_drop {α : Type} : ∀ (l : List α) (i : Nat) (x : α) (r : List α),
    l.drop i = x :: r → l.drop (i + 1) = r := by
  intro l
  induction l with
  | nil => intro i x r h; simp at h
  | cons a as ih =>
    intro i x r h
    cases i with
    | zero => simp_all
    | succ j => exact ih j x r h

theorem chainNumber_cons (prior : Nat) (ce : PocklingtonExtension)
    (ces : List PocklingtonExtension) :
    chainNumber prior (ce :: ces) = chainNumber ce.result ces := by
  cases ces with
  | nil => simp [chainNumber]
  | cons x xs =>
    obtain ⟨e, he⟩ : ∃ e, (x :: xs).getLast? = some e := by
      cases h : (x :: xs).getLast? with
      | some e => exact ⟨e, rfl⟩
      | none => simp at h
    simp [chainNumber, List.getLast?_cons_cons, he]

theorem number_eq_chainNumber (c : PocklingtonCertificate) :
    c.number = chainNumber c.base_prime c.extensions := rfl

theorem number_concat (b n : Nat) (l : List PocklingtonExtension)
    (e : PocklingtonExtension) :
    (PocklingtonCertificate.mk b n (l ++ [e])).number = e.result := by
  simp [PocklingtonCertificate.number]

theorem find_base_some (N P ev : Nat) : ∀ fuel base b',
    find_base N P ev base fuel = some b' →
    base ≤ b' ∧
    modpow (modpow b' ev N) P N = 1 ∧
    Nat.gcd (modpow b' ev N - 1) N = 1 ∧
    ∀ c, base ≤ c → c < b' →
      modpow (modpow c ev N) P N = 1 ∧ Nat.gcd (modpow c ev N - 1) N ≠ 1 := by
  intro fuel
  induction fuel with
  | zero => intro base b' h; simp [find_base] at h
  | succ f ih =>
    intro base b' h
    simp only [find_base] at h
    split at h
    · simp at h
    · rename_i hpow
      push_neg at hpow
      split at h
      · rename_i hgcd
        simp only [Option.some.injEq] at h
        subst h
        exact ⟨le_refl _, hpow, hgcd,
          fun c hc1 hc2 => absurd (lt_of_le_of_lt hc1 hc2) (lt_irrefl _)⟩
      · rename_i hgcd
        obtain ⟨hle, hm, hg, hall⟩ := ih (base + 1) b' h
        refine ⟨by omega, hm, hg, fun c hc1 hc2 => ?_⟩
        rcases Nat.eq_or_lt_of_le hc1 with rfl | hlt
        · exact ⟨hpow, hgcd⟩
        · exact hall c hlt hc2

theorem attemptLoop_ok_spec (env : Env) (p : PocklingtonCertificate)
    (plan : PlannedExtension) (random : Nat) : ∀ fuel i q,
    attemptLoop env p plan random i fuel = .ok q →
    ∃ nonce base, i ≤ nonce ∧ nonce < i + fuel ∧
      find_base (p.number * (random + low_k_bits (env.mimc nonce) plan.nonce_bits) + 1)
          p.number (random + low_k_bits (env.mimc nonce) plan.nonce_bits) 2
          (p.number * (random + low_k_bits (env.mimc nonce) plan.nonce_bits) + 1 - 2)
        = some base ∧
      q = ⟨p.base_prime, p.base_nonce, p.extensions ++
            [⟨plan, random, nonce, base,
              p.number * (random + low_k_bits (env.mimc nonce) plan.nonce_bits) + 1⟩]⟩ := by
  intro fuel
  induction fuel with
  | zero => intro i q h; simp [attemptLoop] at h
  | succ f ih =>
    intro i q h
    simp only [attemptLoop] at h
    cases hf : find_base (p.number * (random + low_k_bits (env.mimc i) plan.nonce_bits) + 1)
        p.number (random + low_k_bits (env.mimc i) plan.nonce_bits) 2
        (p.number * (random + low_k_bits (env.mimc i) plan.nonce_bits) + 1 - 2) with
    | some base =>
      rw [hf] at h
      cases h
      exact ⟨i, base, le_refl _, by omega, hf, rfl⟩
    | none =>
      rw [hf] at h
      obtain ⟨nonce, base, h1, h2, h3, h4⟩ := ih (i + 1) q h
      exact ⟨nonce, base, by omega, by omega, h3, h4⟩

theorem attemptLoop_err_spec (env : Env) (p : PocklingtonCertificate)
    (plan : PlannedExtension) (random : Nat) : ∀ fuel i q,
    attemptLoop env p plan random i fuel = .error q →
    q = p ∧ ∀ k, i ≤ k → k < i + fuel →
      find_base (p.number * (random + low_k_bits (env.mimc k) plan.nonce_bits) + 1)
          p.number (random + low_k_bits (env.mimc k) plan.nonce_bits) 2
          (p.number * (random + low_k_bits (env.mimc k) plan.nonce_bits) + 1 - 2) = none := by
  intro fuel
  induction fuel with
  | zero =>
    intro i q h
    simp only [attemptLoop] at h
    cases h
    exact ⟨rfl, fun k hk1 hk2 => by omega⟩
  | succ f ih =>
    intro i q h
    simp only [attemptLoop] at h
    cases hf : find_base (p.number * (random + low_k_bits (env.mimc i) plan.nonce_bits) + 1)
        p.number (random + low_k_bits (env.mimc i) plan.nonce_bits) 2
        (p.number * (random + low_k_bits (env.mimc i) plan.nonce_bits) + 1 - 2) with
    | some base => rw [hf] at h; cases h
    | none =>
      rw [hf] at h
      obtain ⟨hq, hall⟩ := ih (i + 1) q h
      refine ⟨hq, fun k hk1 hk2 => ?_⟩
      rcases Nat.eq_or_lt_of_le hk1 with rfl | hlt
      · exact hf
      · exact hall k hlt (by omega)

theorem getBits_ext_val (env : Env) (es : EntropySource) (rb : Nat) :
    (getBitsAsNat env es ⟨0, 1, rb⟩).1 = rawBits env es.hashVal es.pos rb + 2 ^ rb := by
  simp [getBitsAsNat]

theorem getBits_ext_src (env : Env) (es : EntropySource) (rb : Nat) :
    (getBitsAsNat env es ⟨0, 1, rb⟩).2 = ⟨es.hashVal, es.len, es.pos + rb⟩ := rfl

theorem getBits_seed_val (env : Env) (h len : Nat) :
    (getBitsAsNat env (EntropySource.new h len) ⟨2, 1, 29⟩).1 =
      3 + rawBits env h 0 29 * 4 + 2 ^ 31 := by
  simp [getBitsAsNat, EntropySource.new]

theorem getBits_seed_src (env : Env) (h len : Nat) :
    (getBitsAsNat env (EntropySource.new h len) ⟨2, 1, 29⟩).2 = ⟨h, len, 29⟩ := by
  simp [getBitsAsNat, EntropySource.new]

theorem attempt_ok_full (env : Env) (p : PocklingtonCertificate)
    (plan : PlannedExtension) (random : Nat) (q : PocklingtonCertificate)
    (h : attempt_pocklington_extension env p plan random = .ok q) :
    ∃ e : PocklingtonExtension,
      q = ⟨p.base_prime, p.base_nonce, p.extensions ++ [e]⟩ ∧
      e.plan = plan ∧ e.random = random ∧ e.nonce < 2 ^ plan.nonce_bits ∧
      2 ≤ e.checking_base ∧
      e.result = p.number * (random + low_k_bits (env.mimc e.nonce) plan.nonce_bits) + 1 ∧
      p.number < e.result ∧
      modpow (modpow e.checking_base (random + low_k_bits (env.mimc e.nonce) plan.nonce_bits)
          e.result) p.number e.result = 1 ∧
      Nat.gcd (modpow e.checking_base (random + low_k_bits (env.mimc e.nonce) plan.nonce_bits)
          e.result - 1) e.result = 1 := by
  obtain ⟨nonce, base, _, hn2, hfb, hq⟩ := attemptLoop_ok_spec env p plan random _ 0 q h
  obtain ⟨hle, hm, hg, _⟩ := find_base_some _ _ _ _ 2 base hfb
  have hfuel : p.number * (random + low_k_bits (env.mimc nonce) plan.nonce_bits) + 1 - 2 ≠ 0 := by
    intro h0
    rw [h0] at hfb
    simp [find_base] at hfb
  have hprod : 2 ≤ p.number * (random + low_k_bits (env.mimc nonce) plan.nonce_bits) := by omega
  have hev : 1 ≤ random + low_k_bits (env.mimc nonce) plan.nonce_bits := by
    rcases Nat.eq_zero_or_pos (random + low_k_bits (env.mimc nonce) plan.nonce_bits) with h0 | h0
    · rw [h0] at hprod; simp at hprod
    · exact h0
  have hlt : p.number < p.number * (random + low_k_bits (env.mimc nonce) plan.nonce_bits) + 1 := by
    have := Nat.mul_le_mul_left p.number hev
    omega
  exact ⟨⟨plan, random, nonce, base, _⟩, hq, rfl, rfl, by simpa using hn2, hle, rfl, hlt, hm, hg⟩

theorem matchExts_cons (env : Env) (h pos prior : Nat) (pe : PlannedExtension)
    (pes : List PlannedExtension) (ce : PocklingtonExtension)
    (ces : List PocklingtonExtension) :
    matchExts env h pos prior (pe :: pes) (ce :: ces) ↔
      (ce.plan = pe ∧
       ce.random = rawBits env h pos pe.random_bits + 2 ^ pe.random_bits ∧
       ce.nonce < 2 ^ pe.nonce_bits ∧
       2 ≤ ce.checking_base ∧
       ce.result = prior * (ce.random + low_k_bits (env.mimc ce.nonce) pe.nonce_bits) + 1 ∧
       prior < ce.result ∧
       modpow (modpow ce.checking_base
           (ce.random + low_k_bits (env.mimc ce.nonce) pe.nonce_bits) ce.result)
         prior ce.result = 1 ∧
       Nat.gcd (modpow ce.checking_base
           (ce.random + low_k_bits (env.mimc ce.nonce) pe.nonce_bits) ce.result - 1)
         ce.result = 1 ∧
       matchExts env h (pos + pe.random_bits) ce.result pes ces) := Iff.rfl

theorem execExts_spec (env : Env) : ∀ (pes : List PlannedExtension) (es : EntropySource)
    (c c' : PocklingtonCertificate), execExts env es c pes = some c' →
    c'.base_prime = c.base_prime ∧ c'.base_nonce = c.base_nonce ∧
    ∃ tail, c'.extensions = c.extensions ++ tail ∧
      matchExts env es.hashVal es.pos c.number pes tail := by
  intro pes
  induction pes with
  | nil =>
    intro es c c' h
    simp only [execExts, Option.some.injEq] at h
    subst h
    exact ⟨rfl, rfl, [], by simp, trivial⟩
  | cons pe rest ih =>
    intro es c c' h
    simp only [execExts] at h
    cases hat : attempt_pocklington_extension env c pe
        (getBitsAsNat env es ⟨0, 1, pe.random_bits⟩).1 with
    | error e0 => rw [hat] at h; simp at h
    | ok c1 =>
      rw [hat] at h
      obtain ⟨e, hq, hplan, hrand, hnonce, hbase2, hres, hlt, hpow, hgcd⟩ :=
        attempt_ok_full env c pe _ c1 hat
      obtain ⟨hbp, hbn, tail', htl, hm⟩ := ih _ c1 c' h
      have hnum : c1.number = e.result := by rw [hq, number_concat]
      refine ⟨by rw [hbp, hq], by rw [hbn, hq], e :: tail', ?_, ?_⟩
      · rw [htl, hq]; simp
      · rw [matchExts_cons]
        rw [getBits_ext_val] at hrand
        rw [getBits_ext_src] at hm
        rw [hnum] at hm
        rw [getBits_ext_val] at hres hpow hgcd
        rw [← hrand] at hres hpow hgcd
        exact ⟨hplan, hrand, hnonce, hbase2, hres, hlt, hpow, hgcd, hm⟩

theorem execute_spec (env : Env) (hash : Nat) (plan : PocklingtonPlan) (nonce : Nat)
    (cert : PocklingtonCertificate)
    (he : execute_pocklington_plan env hash plan nonce = some cert) :
    cert.base_nonce = nonce ∧
    cert.base_prime = 3 + rawBits env hash 0 29 * 4 + 2 ^ 31 ∧
    env.mr32 cert.base_prime = true ∧
    matchExts env hash 29 cert.base_prime plan.extensions cert.extensions := by
  simp only [execute_pocklington_plan] at he
  split at he
  · rename_i hmr
    obtain ⟨hbp, hbn, tail, htl, hm⟩ := execExts_spec env plan.extensions _ _ cert he
    rw [getBits_seed_src] at hm
    rw [getBits_seed_val] at hbp hmr
    have hexts : cert.extensions = tail := by simpa using htl
    have hnum : (⟨(getBitsAsNat env (EntropySource.new hash plan.entropy) ⟨2, 1, 29⟩).1,
        nonce, []⟩ : PocklingtonCertificate).number =
        3 + rawBits env hash 0 29 * 4 + 2 ^ 31 := by
      rw [number_eq_chainNumber]
      simp [chainNumber, getBits_seed_val]
    rw [hnum] at hm
    rw [hexts]
    exact ⟨by simpa using hbn, hbp, by rw [hbp]; exact hmr, by rw [hbp]; exact hm⟩
  · simp at he

theorem matchExts_extChainOk (env : Env) : ∀ (pes : List PlannedExtension)
    (ces : List PocklingtonExtension) (h pos prior : Nat),
    matchExts env h pos prior pes ces → extChainOk env prior ces := by
  intro pes
  induction pes with
  | nil =>
    intro ces h pos prior hm
    cases ces with
    | nil => trivial
    | cons ce ces' => exact hm.elim
  | cons pe pes ih =>
    intro ces h pos prior hm
    cases ces with
    | nil => exact hm.elim
    | cons ce ces' =>
      rw [matchExts_cons] at hm
      obtain ⟨hplan, _, _, _, hres, _, hpow, hgcd, hrec⟩ := hm
      refine ⟨⟨?_, ?_, ?_⟩, ih ces' h _ ce.result hrec⟩
      · rw [extension_value, hplan]; exact hres
      · rw [extension_value, hplan]
        rw [modpow_eq, modpow_eq] at hpow
        exact hpow
      · rw [extension_value, hplan]
        rw [modpow_eq] at hgcd
        exact hgcd

/-- C1: every certificate returned by `execute_pocklington_plan` (hence by
`attempt_pocklington_extension` chained along the plan) satisfies, at every
extension, the Pocklington relation with respect to the preceding number
(the previous extension's `result`, or `base_prime` for the first):
`result = prior * extension_value + 1`, and with
`part = checking_base ^ extension_value mod result`, both
`part ^ prior mod result = 1` and `gcd(part - 1, result) = 1`. -/
theorem execute_certificate_chain (env : Env) (hash : Nat) (plan : PocklingtonPlan)
    (nonce : Nat) (cert : PocklingtonCertificate)
    (h : execute_pocklington_plan env hash plan nonce = some cert) :
    extChainOk env cert.base_prime cert.extensions :=
  matchExts_extChainOk env plan.extensions cert.extensions hash 29 cert.base_prime
    (execute_spec env hash plan nonce cert h).2.2.2

set_option maxRecDepth 100000 in
/-- C1 witness: a concrete successful run of `execute_pocklington_plan` (with
no planned extensions) to which the chain theorem applies. -/
theorem execute_certificate_chain_witness :
    execute_pocklington_plan wEnv 0 ⟨9, 20, []⟩ 0 = some ⟨2147483659, 0, []⟩ ∧
    extChainOk wEnv (2147483659 : Nat) [] :=
  ⟨by decide, by
    have := execute_certificate_chain wEnv 0 ⟨9, 20, []⟩ 0 ⟨2147483659, 0, []⟩ (by decide)
    exact this⟩

/-- C8: if `attempt_pocklington_extension` exhausts every nonce in
`0 .. 2^nonce_bits` without finding a valid `(base, nonce)` witness (every
per-nonce base search returns nothing), it returns `Err` carrying the input
certificate completely unmodified. -/
theorem attempt_exhaustion_unmodified (env : Env) (p : PocklingtonCertificate)
    (plan : PlannedExtension) (random : Nat) (q : PocklingtonCertificate)
    (h : attempt_pocklington_extension env p plan random = .error q) :
    q = p ∧ ∀ k, k < 2 ^ plan.nonce_bits →
      find_base (p.number * (random + low_k_bits (env.mimc k) plan.nonce_bits) + 1)
          p.number (random + low_k_bits (env.mimc k) plan.nonce_bits) 2
          (p.number * (random + low_k_bits (env.mimc k) plan.nonce_bits) + 1 - 2) = none := by
  obtain ⟨hq, hall⟩ := attemptLoop_err_spec env p plan random _ 0 q h
  exact ⟨hq, fun k hk => hall k (by omega) (by omega)⟩

/-- C8 witness: a concrete exhausted search (prior number 4, extension value
2, candidate 9; base 2 fails the power check) returning the unmodified
certificate. -/
theorem attempt_exhaustion_unmodified_witness :
    attempt_pocklington_extension tEnv ⟨4, 0, []⟩ ⟨0, 2⟩ 2 = .error ⟨4, 0, []⟩ ∧
    (⟨4, 0, []⟩ : PocklingtonCertificate) = ⟨4, 0, []⟩ :=
  ⟨by decide, (attempt_exhaustion_unmodified tEnv ⟨4, 0, []⟩ ⟨0, 2⟩ 2 ⟨4, 0, []⟩ (by decide)).1⟩

/-- C10: a successful `attempt_pocklington_extension` differs from its input
only by appending exactly one extension: `base_prime`, `base_nonce` and the
previously existing extensions are unchanged, and the new number is strictly
larger than the prior number. -/
theorem attempt_success_frame (env : Env) (p : PocklingtonCertificate)
    (plan : PlannedExtension) (random : Nat) (q : PocklingtonCertificate)
    (h : attempt_pocklington_extension env p plan random = .ok q) :
    q.base_prime = p.base_prime ∧ q.base_nonce = p.base_nonce ∧
    q.extensions.length = p.extensions.length + 1 ∧
    q.extensions.take p.extensions.length = p.extensions ∧
    p.number < q.number := by
  obtain ⟨e, hq, _, _, _, _, _, hlt, _, _⟩ := attempt_ok_full env p plan random q h
  subst hq
  refine ⟨rfl, rfl, by simp, ?_, ?_⟩
  · exact List.take_left p.extensions [e]
  · rw [number_concat]; exact hlt

/-- C10 witness: extending the certificate with base prime 5 by the extension
value 2 succeeds with candidate 11 and checking base 2, appending exactly one
extension. -/
theorem attempt_success_frame_witness :
    attempt_pocklington_extension tEnv ⟨5, 0, []⟩ ⟨0, 1⟩ 2 =
      .ok ⟨5, 0, [⟨⟨0, 1⟩, 2, 0, 2, 11⟩]⟩ ∧
    (5 : Nat) <
      (PocklingtonCertificate.mk 5 0 [⟨⟨0, 1⟩, 2, 0, 2, 11⟩]).number :=
  ⟨by decide,
    (attempt_success_frame tEnv ⟨5, 0, []⟩ ⟨0, 1⟩ 2 ⟨5, 0, [⟨⟨0, 1⟩, 2, 0, 2, 11⟩]⟩
      (by decide)).2.2.2.2⟩

theorem htpLoop_none_iff (env : Env) (plan : PocklingtonPlan) (inputs : List Nat) :
    ∀ fuel start, htpLoop env plan inputs start fuel = none ↔
      ∀ k, start ≤ k → k < start + fuel →
        execute_pocklington_plan env (env.hash (inputs ++ [k])) plan k = none := by
  intro fuel
  induction fuel with
  | zero =>
    intro start
    constructor
    · intro _ k h1 h2; omega
    · intro _; rfl
  | succ f ih =>
    intro start
    simp only [htpLoop]
    cases hx : execute_pocklington_plan env (env.hash (inputs ++ [start])) plan start with
    | some cert =>
      constructor
      · intro hc; simp at hc
      · intro hall
        have h0 := hall start (le_refl _) (by omega)
        rw [hx] at h0
        exact absurd h0 (by simp)
    | none =>
      rw [ih (start + 1)]
      constructor
      · intro hall k hk1 hk2
        rcases Nat.eq_or_lt_of_le hk1 with rfl | hlt
        · exact hx
        · exact hall k hlt (by omega)
      · intro hall k hk1 hk2
        exact hall k (by omega) (by omega)

theorem htpLoop_some_spec (env : Env) (plan : PocklingtonPlan) (inputs : List Nat) :
    ∀ fuel start cert, htpLoop env plan inputs start fuel = some cert →
      ∃ k, start ≤ k ∧ k < start + fuel ∧
        execute_pocklington_plan env (env.hash (inputs ++ [k])) plan k = some cert ∧
        ∀ j, start ≤ j → j < k →
          execute_pocklington_plan env (env.hash (inputs ++ [j])) plan j = none := by
  intro fuel
  induction fuel with
  | zero => intro start cert h; simp [htpLoop] at h
  | succ f ih =>
    intro start cert h
    simp only [htpLoop] at h
    cases hx : execute_pocklington_plan env (env.hash (inputs ++ [start])) plan start with
    | some c0 =>
      rw [hx] at h
      simp only [Option.some.injEq] at h
      subst h
      exact ⟨start, le_refl _, by omega, hx, fun j h1 h2 => by omega⟩
    | none =>
      rw [hx] at h
      obtain ⟨k, hk1, hk2, hk3, hk4⟩ := ih (start + 1) cert h
      refine ⟨k, by omega, by omega, hk3, fun j hj1 hj2 => ?_⟩
      rcases Nat.eq_or_lt_of_le hj1 with rfl | hlt
      · exact hx
      · exact hk4 j hlt hj2

/-- C9: `helper::hash_to_pocklington_prime` appends a zero-initialized counter
to the inputs and, for counter values `0` up to (excluding)
`2^plan.nonce_bits`, hashes the extended inputs and attempts
`execute_pocklington_plan` with that hash and counter, returning the first
success immediately; it returns `none` exactly when every counter value
fails. -/
theorem helper_counter_search (env : Env) (nbn : Nat → Nat) (inputs : List Nat)
    (entropy : Nat) (plan : PocklingtonPlan)
    (hp : PocklingtonPlan.new nbn entropy = some plan) :
    (helper_hash_to_pocklington_prime env nbn inputs entropy = none ↔
      ∀ k, k < 2 ^ plan.nonce_bits →
        execute_pocklington_plan env (env.hash (inputs ++ [k])) plan k = none) ∧
    ∀ cert, helper_hash_to_pocklington_prime env nbn inputs entropy = some cert →
      ∃ k, k < 2 ^ plan.nonce_bits ∧
        execute_pocklington_plan env (env.hash (inputs ++ [k])) plan k = some cert ∧
        ∀ j, j < k →
          execute_pocklington_plan env (env.hash (inputs ++ [j])) plan j = none := by
  have hred : helper_hash_to_pocklington_prime env nbn inputs entropy =
      htpLoop env plan inputs 0 (2 ^ plan.nonce_bits) := by
    unfold helper_hash_to_pocklington_prime
    rw [hp]
  rw [hred]
  constructor
  · rw [htpLoop_none_iff]
    constructor
    · intro hall k hk; exact hall k (by omega) (by omega)
    · intro hall k _ hk; exact hall k (by omega)
  · intro cert hcert
    obtain ⟨k, _, hk2, hk3, hk4⟩ := htpLoop_some_spec env plan inputs _ 0 cert hcert
    exact ⟨k, by omega, hk3, fun j hj => hk4 j (by omega) hj⟩

set_option maxRecDepth 100000 in
/-- C9 witness: in the witness environment the search succeeds at counter 0,
so the `none` case is equivalent to all counters failing and the successful
case yields a first witness counter. -/
theorem helper_counter_search_witness :
    PocklingtonPlan.new nbnReal 29 = some wPlan ∧
    (helper_hash_to_pocklington_prime wEnv nbnReal [1] 29 = none ↔
      ∀ k, k < 2 ^ wPlan.nonce_bits →
        execute_pocklington_plan wEnv (wEnv.hash ([1] ++ [k])) wPlan k = none) :=
  ⟨by decide, (helper_counter_search wEnv nbnReal [1] 29 wPlan (by decide)).1⟩

theorem circuitExts_eq (env : Env) (cert : PocklingtonCertificate) :
    ∀ (pes : List PlannedExtension) (ces : List PocklingtonExtension) (i : Nat)
      (es : EntropySource) (prime : Nat),
      cert.extensions.drop i = ces →
      matchExts env es.hashVal es.pos prime pes ces →
      circuitExts env cert pes i es prime = some (chainNumber prime ces) := by
  intro pes
  induction pes with
  | nil =>
    intro ces i es prime hdrop hm
    cases ces with
    | nil => simp [circuitExts, chainNumber]
    | cons ce ces' => exact hm.elim
  | cons pe rest ih =>
    intro ces i es prime hdrop hm
    cases ces with
    | nil => exact hm.elim
    | cons ce ces' =>
      rw [matchExts_cons] at hm
      obtain ⟨hplan, hrand, hnonce, hcb, hres, hlt, hpow, hgcd, hrec⟩ := hm
      have hget : cert.extensions.get? i = some ce := get?_eq_of_drop _ _ _ _ hdrop
      have hdrop' : cert.extensions.drop (i + 1) = ces' := drop_succ_of_drop _ _ _ _ hdrop
      simp only [circuitExts, hget]
      have hdr : (getBitsAsNat env es ⟨0, 1, pe.random_bits⟩).1 = ce.random := by
        rw [getBits_ext_val, hrand]
      rw [hdr]
      have hn : (ce.random + low_k_bits (env.mimc ce.nonce) pe.nonce_bits) * prime + 1
          = ce.result := by rw [hres]; ring
      rw [hn]
      rw [if_neg (by simp [hgcd]), if_neg (by simp [hpow])]
      rw [chainNumber_cons]
      apply ih ces' (i + 1) _ ce.result hdrop'
      rw [getBits_ext_src]
      exact hrec

/-- C3: for every inputs sequence and entropy for which the native derivation
succeeds, the value of the `BigNat` returned by the in-circuit
`hash_to_pocklington_prime` equals `certificate.number()` of the native
certificate, with every emitted constraint (the Miller-Rabin check, the
coprimality checks, and the carried-equality checks) satisfied — i.e. the
value-level circuit run returns `some`. -/
theorem circuit_refines_native (env : Env) (nbn : Nat → Nat) (input : List Nat)
    (entropy : Nat) (cert : PocklingtonCertificate)
    (h : helper_hash_to_pocklington_prime env nbn input entropy = some cert) :
    circuit_hash_to_pocklington_prime env nbn input entropy = some cert.number := by
  have h0 := h
  unfold helper_hash_to_pocklington_prime at h
  cases hp : PocklingtonPlan.new nbn entropy with
  | none => rw [hp] at h; exact absurd h (by simp)
  | some plan =>
    rw [hp] at h
    obtain ⟨k, _, hk2, hexec, _⟩ := htpLoop_some_spec env plan input _ 0 cert h
    obtain ⟨hbn, hbp, hmr, hm⟩ := execute_spec env _ plan k cert hexec
    simp only [circuit_hash_to_pocklington_prime, hp, h0]
    rw [hbn]
    rw [getBits_seed_val, getBits_seed_src]
    rw [← hbp, hmr]
    simp only [if_true]
    rw [number_eq_chainNumber]
    exact circuitExts_eq env cert plan.extensions cert.extensions 0
      ⟨env.hash (input ++ [k]), entropy, 29⟩ cert.base_prime rfl hm

set_option maxRecDepth 100000 in
/-- C3 witness: the concrete pipeline in the witness environment; the
circuit value equals the native certificate's number. -/
theorem circuit_refines_native_witness :
    helper_hash_to_pocklington_prime wEnv nbnReal [1] 29 = some wCert ∧
    circuit_hash_to_pocklington_prime wEnv nbnReal [1] 29 = some wCert.number :=
  ⟨by decide, circuit_refines_native wEnv nbnReal [1] 29 wCert (by decide)⟩

theorem sum_map_add_two (l : List PlannedExtension) :
    (l.map fun e => e.random_bits + 2).sum =
      (l.map fun e => e.random_bits + 1).sum + l.length := by
  induction l with
  | nil => simp
  | cons e t ih => simp [ih]; omega

theorem matchExts_number_lt (env : Env) : ∀ (pes : List PlannedExtension)
    (ces : List PocklingtonExtension) (h pos prior B : Nat),
    matchExts env h pos prior pes ces → prior < 2 ^ B →
    (∀ pe ∈ pes, pe.nonce_bits ≤ pe.random_bits + 1) →
    chainNumber prior ces < 2 ^ (B + (pes.map fun e => e.random_bits + 2).sum) := by
  intro pes
  induction pes with
  | nil =>
    intro ces h pos prior B hm hp _
    cases ces with
    | nil => simpa [chainNumber] using hp
    | cons ce ces' => exact hm.elim
  | cons pe rest ih =>
    intro ces h pos prior B hm hp hnb
    cases ces with
    | nil => exact hm.elim
    | cons ce ces' =>
      rw [matchExts_cons] at hm
      obtain ⟨hplan, hrand, hnonce, hcb, hres, hlt, _, _, hrec⟩ := hm
      rw [chainNumber_cons]
      have hbnd : ce.result < 2 ^ (B + (pe.random_bits + 2)) := by
        have hraw : rawBits env h pos pe.random_bits < 2 ^ pe.random_bits :=
          rawBits_lt env h _ pos
        have hmask : low_k_bits (env.mimc ce.nonce) pe.nonce_bits < 2 ^ pe.nonce_bits :=
          low_k_bits_lt _ _
        have hnb' : pe.nonce_bits ≤ pe.random_bits + 1 := hnb pe (by simp)
        have hmask2 : low_k_bits (env.mimc ce.nonce) pe.nonce_bits < 2 ^ (pe.random_bits + 1) :=
          lt_of_lt_of_le hmask (Nat.pow_le_pow_right (by omega) hnb')
        have hev : ce.random + low_k_bits (env.mimc ce.nonce) pe.nonce_bits ≤
            2 ^ (pe.random_bits + 2) - 1 := by
          rw [hrand]
          have h1 : 2 ^ (pe.random_bits + 1) = 2 * 2 ^ pe.random_bits := by
            rw [pow_succ]; ring
          have h2 : 2 ^ (pe.random_bits + 2) = 4 * 2 ^ pe.random_bits := by
            rw [pow_add]; ring
          omega
        have hXY : (2 : Nat) ^ (B + (pe.random_bits + 2)) =
            2 ^ B * 2 ^ (pe.random_bits + 2) := pow_add 2 B _
        rw [hres, hXY]
        have hprior : prior ≤ 2 ^ B - 1 := by omega
        have hmul := Nat.mul_le_mul hprior hev
        have hBpos : 1 ≤ 2 ^ B := Nat.one_le_two_pow
        have hYpos : 4 ≤ 2 ^ (pe.random_bits + 2) := by
          have h4 : (2 : Nat) ^ 2 ≤ 2 ^ (pe.random_bits + 2) :=
            Nat.pow_le_pow_right (by omega) (by omega)
          simpa using h4
        have e1 : (2 ^ B - 1) * (2 ^ (pe.random_bits + 2) - 1) +
            2 ^ B + 2 ^ (pe.random_bits + 2) = 2 ^ B * 2 ^ (pe.random_bits + 2) + 1 := by
          obtain ⟨x, hx⟩ : ∃ x, 2 ^ B = x + 1 := ⟨2 ^ B - 1, by omega⟩
          obtain ⟨y, hy⟩ : ∃ y, (2 : Nat) ^ (pe.random_bits + 2) = y + 1 :=
            ⟨2 ^ (pe.random_bits + 2) - 1, by omega⟩
          rw [hx, hy]
          simp [Nat.add_sub_cancel]
          ring
        omega
      have hrest := ih ces' h (pos + pe.random_bits) ce.result (B + (pe.random_bits + 2))
        hrec hbnd (fun pe' hpe' => hnb pe' (by simp [hpe']))
      have hexp : B + ((pe :: rest).map fun e => e.random_bits + 2).sum =
          (B + (pe.random_bits + 2)) + (rest.map fun e => e.random_bits + 2).sum := by
        simp [List.sum_cons]
        omega
      rw [hexp]
      exact hrest

/-- C4 amended: for every certificate produced by `execute_pocklington_plan`
with plan `p` whose extensions all satisfy `nonce_bits ≤ random_bits + 1`,
the number is below `2 ^ (p.max_bits() + number of extensions)` — i.e. the
bit-length is at most `max_bits` plus one extra bit per extension (the
drawn random value plus the nonce mask can overflow `random_bits + 1` bits
by one). -/
theorem execute_number_bound (env : Env) (hash : Nat) (plan : PocklingtonPlan)
    (nonce : Nat) (cert : PocklingtonCertificate)
    (hnb : ∀ pe ∈ plan.extensions, pe.nonce_bits ≤ pe.random_bits + 1)
    (h : execute_pocklington_plan env hash plan nonce = some cert) :
    cert.number < 2 ^ (plan.max_bits + plan.extensions.length) := by
  obtain ⟨_, hbp, _, hm⟩ := execute_spec env hash plan nonce cert h
  have hseed : cert.base_prime < 2 ^ 32 := by
    rw [hbp]
    have hr := rawBits_lt env hash 29 0
    have h29 : (2 : Nat) ^ 29 = 536870912 := by norm_num
    have h31 : (2 : Nat) ^ 31 = 2147483648 := by norm_num
    have h32 : (2 : Nat) ^ 32 = 4294967296 := by norm_num
    omega
  have hlt := matchExts_number_lt env plan.extensions cert.extensions hash 29
    cert.base_prime 32 hm hseed hnb
  rw [number_eq_chainNumber]
  have hexp : 32 + (plan.extensions.map fun e => e.random_bits + 2).sum =
      plan.max_bits + plan.extensions.length := by
    rw [PocklingtonPlan.max_bits, sum_map_add_two]
    omega
  rw [← hexp]
  exact hlt

set_option maxRecDepth 100000 in
/-- C4 amended witness: the corrected bound applied to the concrete witness
run (`max_bits = 53`, one extension, number `2251954444043033 < 2^54`). -/
theorem execute_number_bound_witness :
    (∀ pe ∈ wPlan.extensions, pe.nonce_bits ≤ pe.random_bits + 1) ∧
    execute_pocklington_plan wEnv 0 wPlan 0 = some wCert ∧
    wCert.number < 2 ^ (wPlan.max_bits + wPlan.extensions.length) :=
  ⟨by decide, by decide,
    execute_number_bound wEnv 0 wPlan 0 wCert (by decide) (by decide)⟩

set_option maxRecDepth 100000 in
/-- C4 counterexample: the claimed bound `bit-length ≤ plan.max_bits()`
fails.  With the seed prime 3817748951, extension budget
`random_bits = 3, nonce_bits = 2`, maximal random draw 15 and nonce mask 3,
`execute_pocklington_plan` produces the certificate number
`3817748951 * 18 + 1 = 68719481119`, a 37-bit number, while
`max_bits = 32 + (3 + 1) = 36`. -/
theorem execute_number_bound_counterexample :
    execute_pocklington_plan c4Env 0 c4Plan 0 = some c4Cert ∧
    c4Plan.max_bits = 36 ∧
    2 ^ c4Plan.max_bits ≤ c4Cert.number := by
  refine ⟨by decide, by decide, by decide⟩

/-- C7 amended: within one nonce, the base search runs from base 2 upward
while `base < candidate`; a failed power check
(`part ^ prior mod candidate ≠ 1`) abandons the whole base search for this
nonce (the source `break`s), while only a failed coprimality check advances
to `base + 1`.  Hence a success at base `b` means every base in `[2, b)`
passed the power check and failed the coprimality check. -/
theorem find_base_break_semantics (N P ev fuel base b' : Nat)
    (h : find_base N P ev base fuel = some b') :
    base ≤ b' ∧
    modpow (modpow b' ev N) P N = 1 ∧
    Nat.gcd (modpow b' ev N - 1) N = 1 ∧
    ∀ c, base ≤ c → c < b' →
      modpow (modpow c ev N) P N = 1 ∧ Nat.gcd (modpow c ev N - 1) N ≠ 1 :=
  find_base_some N P ev fuel base b' h

/-- C7 amended witness: for candidate 7, prior 2, extension value 3, base 2
passes the power check but fails the coprimality check, and the search
advances to base 3, which succeeds. -/
theorem find_base_break_semantics_witness :
    find_base 7 2 3 2 5 = some 3 ∧
    (2 ≤ 3 ∧ modpow (modpow 3 3 7) 2 7 = 1 ∧ Nat.gcd (modpow 3 3 7 - 1) 7 = 1 ∧
      ∀ c, 2 ≤ c → c < 3 →
        modpow (modpow c 3 7) 2 7 = 1 ∧ Nat.gcd (modpow c 3 7 - 1) 7 ≠ 1) :=
  ⟨by decide, find_base_break_semantics 7 2 3 5 2 3 (by decide)⟩

/-- C7 counterexample: the claim says a failed power check rejects only that
single base and the search advances to `base + 1`.  On candidate
`121 = 5 * 24 + 1` the power check fails at base 2, and the source search
aborts the nonce (`none`), while the claimed advance-on-failure search would
continue and succeed at base 3. -/
theorem find_base_break_counterexample :
    find_base 121 5 24 2 119 = none ∧ find_base_claim 121 5 24 2 119 = some 3 :=
  ⟨by decide, by decide⟩

theorem innerLoop_some (nbn : Nat → Nat) (rb bb : Nat) : ∀ fuel nb0 nb nxt,
    innerLoop nbn rb bb nb0 fuel = some (nb, nxt) →
    rb + nb + 1 < bb ∧ nxt = nb + rb + bb + 1 ∧ nbn nxt ≤ nb ∧ nb0 ≤ nb := by
  intro fuel
  induction fuel with
  | zero => intro nb0 nb nxt h; simp [innerLoop] at h
  | succ f ih =>
    intro nb0 nb nxt h
    simp only [innerLoop] at h
    split at h
    · simp at h
    · rename_i hlt
      push_neg at hlt
      split at h
      · rename_i hnbn
        simp only [Option.some.injEq, Prod.mk.injEq] at h
        obtain ⟨h1, h2⟩ := h
        subst h1
        subst h2
        exact ⟨by omega, rfl, hnbn, le_refl _⟩
      · obtain ⟨a, b, c, d⟩ := ih (nb0 + 1) nb nxt h
        exact ⟨a, b, c, by omega⟩

theorem scanBases_some (nbn : Nat → Nat) (ne : Nat) :
    ∀ (l : List Entry) (acc : Option Entry) (e : Entry),
    scanBases nbn ne l acc = some e →
    acc = some e ∨ ∃ base ∈ l, candRel nbn ne base e := by
  intro l
  induction l with
  | nil => intro acc e h; exact Or.inl h
  | cons b rest ih =>
    intro acc e h
    simp only [scanBases] at h
    split at h
    · rcases ih acc e h with h1 | ⟨base, hb1, hb2⟩
      · exact Or.inl h1
      · exact Or.inr ⟨base, by simp [hb1], hb2⟩
    · rename_i nb nxt hil
      have hcand : candRel nbn ne b ⟨ne - b.entropy, ne, nxt, ne - b.entropy + nb, nb⟩ :=
        ⟨nb, nxt, hil, rfl⟩
      split at h
      · rcases ih _ e h with h1 | ⟨base, hb1, hb2⟩
        · simp only [Option.some.injEq] at h1
          exact Or.inr ⟨b, by simp, h1 ▸ hcand⟩
        · exact Or.inr ⟨base, by simp [hb1], hb2⟩
      · rename_i a
        split at h
        · rcases ih _ e h with h1 | ⟨base, hb1, hb2⟩
          · simp only [Option.some.injEq] at h1
            exact Or.inr ⟨b, by simp, h1 ▸ hcand⟩
          · exact Or.inr ⟨base, by simp [hb1], hb2⟩
        · rcases ih _ e h with h1 | ⟨base, hb1, hb2⟩
          · exact Or.inl h1
          · exact Or.inr ⟨base, by simp [hb1], hb2⟩

theorem getLast?_eq_get (t : List Entry) (h : 0 < t.length) :
    t.getLast? = some (t.get ⟨t.length - 1, by omega⟩) := by
  rw [List.getLast?_eq_getElem?]
  rw [List.getElem?_eq_getElem (by omega)]
  simp [List.get_eq_getElem]

theorem chainUp_append : ∀ (l : List PlannedExtension) (B B' : Nat) (e : PlannedExtension),
    chainUp l B B' → e.nonce_bits ≤ e.random_bits → e.random_bits + 1 < B' →
    chainUp (l ++ [e]) B (B' + e.random_bits + 1) := by
  intro l
  induction l with
  | nil =>
    intro B B' e h h1 h2
    have : B = B' := h
    subst this
    exact ⟨h1, h2, rfl⟩
  | cons x xs ih =>
    intro B B' e h h1 h2
    obtain ⟨a, b, c⟩ := h
    exact ⟨a, b, ih _ _ _ c h1 h2⟩

theorem chainUp_planChainOk : ∀ (l : List PlannedExtension) (B B' : Nat),
    chainUp l B B' → planChainOk l B := by
  intro l
  induction l with
  | nil => intro B B' _; trivial
  | cons x xs ih => intro B B' h; exact ⟨h.1, h.2.1, ih _ _ h.2.2⟩

theorem get?_append_left_entry : ∀ (l₁ l₂ : List Entry) (i : Nat), i < l₁.length →
    (l₁ ++ l₂).get? i = l₁.get? i := by
  intro l₁
  induction l₁ with
  | nil => intro l₂ i h; simp at h
  | cons a as ih =>
    intro l₂ i h
    cases i with
    | zero => rfl
    | succ j => exact ih l₂ j (by simpa using h)

theorem get?_concat_self_entry (l : List Entry) (a : Entry) :
    (l ++ [a]).get? l.length = some a := by
  induction l with
  | nil => rfl
  | cons x xs ih => exact ih

theorem get?_some_lt : ∀ (l : List Entry) (i : Nat) (e : Entry),
    l.get? i = some e → i < l.length := by
  intro l
  induction l with
  | nil => intro i e h; simp at h
  | cons x xs ih =>
    intro i e h
    cases i with
    | zero => simp
    | succ j =>
      have := ih j e h
      exact Nat.succ_lt_succ this

theorem mem_get?_entry (t : List Entry) (x : Entry) (hm : x ∈ t) :
    ∃ j, t.get? j = some x := by
  obtain ⟨⟨j, hj⟩, hg⟩ := List.mem_iff_get.mp hm
  exact ⟨j, by rw [List.get?_eq_get hj, hg]⟩

theorem getLast?_eq_get?_entry (t : List Entry) :
    t.getLast? = t.get? (t.length - 1) := by
  rw [List.getLast?_eq_getElem?, List.get?_eq_getElem?]

theorem tableInv_seed (e : Entry) : tableInv e.entropy [e] := by
  intro i x hx
  cases i with
  | zero =>
    have hx' : e = x := by simpa using hx
    subst hx'
    exact ⟨by simp, fun h0 => absurd h0 (by omega)⟩
  | succ j => simp at hx

theorem tableInv_push (e0 : Nat) (t : List Entry) (nbn : Nat → Nat) (nextE base : Entry)
    (hinv : tableInv e0 t) (hmem : base ∈ t)
    (hrel : candRel nbn (e0 + t.length) base nextE) :
    tableInv e0 (t ++ [nextE]) := by
  obtain ⟨nb, nxt, hil, heq⟩ := hrel
  obtain ⟨hwidth, hnxt, _, _⟩ := innerLoop_some nbn _ _ _ 0 nb nxt hil
  obtain ⟨j, hgj⟩ := mem_get?_entry t base hmem
  have hjlen : j < t.length := get?_some_lt t j base hgj
  have hbent : base.entropy = e0 + j := (hinv j base hgj).1
  intro i e hie
  by_cases hi : i < t.length
  · have hie' : t.get? i = some e := by
      rw [get?_append_left_entry t [nextE] i hi] at hie
      exact hie
    obtain ⟨h1, h2⟩ := hinv i e hie'
    refine ⟨h1, fun hpos => ?_⟩
    obtain ⟨a1, a2, a3, a4, b, hb1, hb2, hb3⟩ := h2 hpos
    refine ⟨a1, a2, a3, a4, b, ?_, hb2, hb3⟩
    rw [get?_append_left_entry t [nextE] _ (by omega)]
    exact hb1
  · have hilen : i < t.length + 1 := by
      have := get?_some_lt (t ++ [nextE]) i e hie
      simpa using this
    have hieq : i = t.length := by omega
    subst hieq
    rw [get?_concat_self_entry t nextE] at hie
    have he : e = nextE := by simpa using hie.symm
    have hf1 : e.marginal_entropy = e0 + t.length - base.entropy := by rw [he, heq]
    have hf2 : e.entropy = e0 + t.length := by rw [he, heq]
    have hf3 : e.bits = nxt := by rw [he, heq]
    have hf4 : e.random_bits = (e0 + t.length - base.entropy) + nb := by rw [he, heq]
    have hf5 : e.nonce_bits = nb := by rw [he, heq]
    refine ⟨by omega, fun _ => ?_⟩
    refine ⟨by omega, by omega, by omega, by omega, base, ?_, by omega, by omega⟩
    have hidx : t.length - e.marginal_entropy = j := by omega
    rw [hidx, get?_append_left_entry t [nextE] j hjlen]
    exact hgj

theorem buildTable_inv (nbn : Nat → Nat) (target e0 : Nat) : ∀ fuel (t t' : List Entry),
    tableInv e0 t → 0 < t.length → buildTable nbn target fuel t = some t' →
    (∃ ext, t' = t ++ ext) ∧ tableInv e0 t' ∧ 0 < t'.length := by
  intro fuel
  induction fuel with
  | zero => intro t t' hinv hpos h; simp [buildTable] at h
  | succ f ih =>
    intro t t' hinv hpos h
    simp only [buildTable] at h
    split at h
    · simp at h
    · rename_i lastE hlast
      split at h
      · simp only [Option.some.injEq] at h
        subst h
        exact ⟨⟨[], by simp⟩, hinv, hpos⟩
      · split at h
        · simp at h
        · rename_i nextE hsc
          rcases scanBases_some nbn (lastE.entropy + 1) t.reverse none nextE hsc with
            h1 | ⟨base, hbm, hbrel⟩
          · simp at h1
          · have hbase : base ∈ t := by simpa using hbm
            have hlent : lastE.entropy = e0 + (t.length - 1) := by
              rw [getLast?_eq_get?_entry] at hlast
              exact (hinv (t.length - 1) lastE hlast).1
            have hent : lastE.entropy + 1 = e0 + t.length := by omega
            rw [hent] at hbrel
            have hinv' := tableInv_push e0 t nbn nextE base hinv hbase hbrel
            obtain ⟨⟨ext, hext⟩, hinv'', hpos''⟩ := ih (t ++ [nextE]) t' hinv' (by simp) h
            exact ⟨⟨[nextE] ++ ext, by rw [hext]; simp⟩, hinv'', hpos''⟩

theorem rebuild_spec (e0 : Nat) (t : List Entry) (hinv : tableInv e0 t)
    (h32 : ∀ e, t.get? 0 = some e → e.bits = 32) :
    ∀ fuel i acc out ei, t.get? i = some ei →
      rebuild t fuel i acc = some out →
      ∃ tail, out = acc ++ tail ∧
        (tail.map fun x => x.random_bits - x.nonce_bits).sum = i ∧
        chainUp tail.reverse 32 ei.bits := by
  intro fuel
  induction fuel with
  | zero => intro i acc out ei hei h; simp [rebuild] at h
  | succ f ih =>
    intro i acc out ei hei h
    simp only [rebuild] at h
    by_cases hi0 : i = 0
    · subst hi0
      rw [if_pos rfl] at h
      simp only [Option.some.injEq] at h
      subst h
      refine ⟨[], by simp, by simp, ?_⟩
      show (32 : Nat) = ei.bits
      exact (h32 ei hei).symm
    · rw [if_neg hi0] at h
      obtain ⟨_, hstep⟩ := hinv i ei hei
      obtain ⟨hm1, hm2, hnbrb, hmrb, b, hb1, hb2, hb3⟩ := hstep (by omega)
      split at h
      · simp at h
      · rename_i e' he'
        rw [hei] at he'
        simp only [Option.some.injEq] at he'
        subst he'
        rw [if_neg (by push_neg; omega)] at h
        obtain ⟨tail', hout, hsum, hchain⟩ :=
          ih (i - ei.marginal_entropy) (acc ++ [⟨ei.nonce_bits, ei.random_bits⟩]) out b hb1 h
        refine ⟨⟨ei.nonce_bits, ei.random_bits⟩ :: tail', ?_, ?_, ?_⟩
        · rw [hout]; simp
        · simp only [List.map_cons, List.sum_cons]
          omega
        · rw [List.reverse_cons]
          have hap := chainUp_append tail'.reverse 32 b.bits
            ⟨ei.nonce_bits, ei.random_bits⟩ hchain (by simpa using hnbrb) (by simpa using hb2)
          rw [hb3]
          simpa using hap

theorem new_some_spec (nbn : Nat → Nat) (entropy : Nat) (plan : PocklingtonPlan)
    (h : PocklingtonPlan.new nbn entropy = some plan) :
    plan.nonce_bits = nbn 32 - 1 ∧
    plan.initial_entropy = 29 - (nbn 32 - 1) ∧
    nbn 32 - 1 ≤ 29 ∧ 29 ≤ entropy ∧
    PocklingtonPlan.entropy plan = entropy ∧
    planChainOk plan.extensions 32 := by
  unfold PocklingtonPlan.new at h
  split at h
  · simp at h
  · rename_i hent29
    split at h
    · simp at h
    · rename_i hnbn0
      split at h
      · simp at h
      · rename_i t hbt
        split at h
        · simp at h
        · rename_i lastE hlast
          split at h
          · simp at h
          · rename_i hlastent
            split at h
            · simp at h
            · rename_i exts hrb
              have h' : (if 29 < nbn 32 - 1 then none
                  else some (⟨nbn 32 - 1, 29 - (nbn 32 - 1), exts.reverse⟩ :
                    PocklingtonPlan)) = some plan := h
              by_cases hnb29 : 29 < nbn 32 - 1
              · rw [if_pos hnb29] at h'
                exact absurd h' (by simp)
              · rw [if_neg hnb29] at h'
                simp only [Option.some.injEq] at h'
                subst h'
                push_neg at hent29 hnb29 hlastent
                have hseedinv : tableInv (seedEntry nbn).entropy [seedEntry nbn] :=
                  tableInv_seed (seedEntry nbn)
                obtain ⟨⟨ext, hext⟩, hinv, hpos⟩ :=
                  buildTable_inv nbn entropy (seedEntry nbn).entropy (entropy + 1)
                    [seedEntry nbn] t hseedinv (by simp) hbt
                have h32 : ∀ e, t.get? 0 = some e → e.bits = 32 := by
                  intro e he
                  rw [hext, get?_append_left_entry [seedEntry nbn] ext 0 (by simp)] at he
                  have : e = seedEntry nbn := by simpa using he.symm
                  rw [this]
                  rfl
                have hlast' : t.get? (t.length - 1) = some lastE := by
                  rw [← getLast?_eq_get?_entry]
                  exact hlast
                have hlastentropy : lastE.entropy = (seedEntry nbn).entropy + (t.length - 1) :=
                  (hinv (t.length - 1) lastE hlast').1
                obtain ⟨tail, hout, hsum, hchain⟩ :=
                  rebuild_spec (seedEntry nbn).entropy t hinv h32 t.length (t.length - 1)
                    [] exts lastE hlast' hrb
                have hexts : exts = tail := by simpa using hout
                subst hexts
                have hseedent : (seedEntry nbn).entropy = 29 - (nbn 32 - 1) := by
                  show 32 - 3 - (nbn 32 - 1) = 29 - (nbn 32 - 1)
                  omega
                refine ⟨rfl, rfl, by omega, by omega, ?_, ?_⟩
                · show (exts.reverse.map fun i => i.random_bits - i.nonce_bits).sum
                      + (29 - (nbn 32 - 1)) = entropy
                  rw [List.map_reverse, List.sum_reverse]
                  rw [hseedent] at hlastentropy
                  omega
                · exact chainUp_planChainOk exts.reverse 32 lastE.bits
                    (by simpa using hchain)

/-- C2: whenever `PocklingtonPlan::new(entropy)` completes (its assertions
hold and it returns a plan), `plan.entropy()` — computed as
`initial_entropy` plus the sum over extensions of
`random_bits - nonce_bits` — equals the requested entropy, for every choice
of the (floating-point) `nonce_bits_needed` function. -/
theorem plan_entropy_roundtrip (nbn : Nat → Nat) (entropy : Nat) (plan : PocklingtonPlan)
    (h : PocklingtonPlan.new nbn entropy = some plan) :
    PocklingtonPlan.entropy plan = entropy :=
  (new_some_spec nbn entropy plan h).2.2.2.2.1

set_option maxRecDepth 100000 in
/-- C2 witness: the entropy-29 plan under the real `nonce_bits_needed`
values. -/
theorem plan_entropy_roundtrip_witness :
    PocklingtonPlan.new nbnReal 29 = some wPlan ∧ PocklingtonPlan.entropy wPlan = 29 :=
  ⟨by decide, plan_entropy_roundtrip nbnReal 29 wPlan (by decide)⟩

/-- C5 amended: for every plan returned by `PocklingtonPlan::new`, along the
bit-width chain `B` starting at 32 (each step adding `random_bits + 1`),
every extension satisfies `nonce_bits ≤ random_bits` and
`random_bits + 1 < B` — equivalently, with the marginal entropy
`random_bits - nonce_bits` (the DP's local random-bit count), the checked
condition `(random_bits - nonce_bits) + nonce_bits + 1 < B`.  The claim's
stronger `random_bits + nonce_bits + 1 < B` does not hold (the stored
`random_bits` already includes the nonce bits). -/
theorem plan_width_invariant (nbn : Nat → Nat) (entropy : Nat) (plan : PocklingtonPlan)
    (h : PocklingtonPlan.new nbn entropy = some plan) :
    planChainOk plan.extensions 32 :=
  (new_some_spec nbn entropy plan h).2.2.2.2.2

set_option maxRecDepth 100000 in
/-- C5 amended witness: the entropy-29 plan satisfies the width invariant. -/
theorem plan_width_invariant_witness :
    PocklingtonPlan.new nbnReal 29 = some wPlan ∧ planChainOk wPlan.extensions 32 :=
  ⟨by decide, plan_width_invariant nbnReal 29 wPlan (by decide)⟩

set_option maxRecDepth 100000 in
/-- C5 counterexample: with the real `nonce_bits_needed` values, the
entropy-29 plan has a single extension with `random_bits = 20` and
`nonce_bits = 11`, applied to the 32-bit seed, and
`random_bits + nonce_bits + 1 = 32` is not `< 32`: the claimed invariant
fails on the first extension of the very first planned entropy. -/
theorem plan_width_invariant_counterexample :
    PocklingtonPlan.new nbnReal 29 = some wPlan ∧
    wPlan.extensions = [⟨11, 20⟩] ∧
    ¬((20 : Nat) + 11 + 1 < 32) :=
  ⟨by decide, by decide, by decide⟩

/-- C6 amended: the dynamic-programming table starts from a 32-bit seed entry
whose entropy is `32 - 3 - (nonce_bits_needed(32) - 1)` (the source
subtracts one from `nonce_bits_needed(32)` before using it), and the
returned plan's `initial_entropy` plus its (outer) `nonce_bits` equals 29. -/
theorem new_seed_and_entropy_accounting (nbn : Nat → Nat) (entropy : Nat)
    (plan : PocklingtonPlan) (h : PocklingtonPlan.new nbn entropy = some plan) :
    (seedEntry nbn).bits = 32 ∧
    (seedEntry nbn).entropy = 32 - 3 - (nbn 32 - 1) ∧
    plan.initial_entropy + plan.nonce_bits = 29 := by
  obtain ⟨h1, h2, h3, _, _, _⟩ := new_some_spec nbn entropy plan h
  exact ⟨rfl, rfl, by omega⟩

set_option maxRecDepth 100000 in
/-- C6 amended witness: the seed entry and entropy accounting at the real
`nonce_bits_needed` values and entropy 29. -/
theorem new_seed_and_entropy_accounting_witness :
    PocklingtonPlan.new nbnReal 29 = some wPlan ∧
    ((seedEntry nbnReal).bits = 32 ∧
     (seedEntry nbnReal).entropy = 32 - 3 - (nbnReal 32 - 1) ∧
     wPlan.initial_entropy + wPlan.nonce_bits = 29) :=
  ⟨by decide, new_seed_and_entropy_accounting nbnReal 29 wPlan (by decide)⟩

set_option maxRecDepth 100000 in
/-- C6 counterexample: the claim says the seed entry's entropy is
`32 - 3 - nonce_bits_needed(32)`.  With the real value
`nonce_bits_needed(32) = 10` the source's seed entropy is
`32 - 3 - (10 - 1) = 20`, not `32 - 3 - 10 = 19`. -/
theorem new_seed_entropy_counterexample :
    PocklingtonPlan.new nbnReal 29 = some wPlan ∧
    (seedEntry nbnReal).entropy = 20 ∧
    32 - 3 - nbnReal 32 = 19 :=
  ⟨by decide, by decide, by decide⟩

end Pocklington
